import Mathlib

/-!
A shallow embedding of the mk20d7 HAL core (src/i2c.rs and src/mcg.rs):
the I2C interrupt protocol engine with its shared transaction slot, the
baud-rate divider search, and the clock-generator divider arithmetic.
Machine bytes are modelled as Nat with explicit masking where the source
truncates; fallible code (Rust panics: todo!, unreachable!, failed range
checks, out-of-bounds indexing, division by zero) is modelled with Option,
none standing for a panic.  Theorems checking the specification's claims
against these definitions follow the definitions.
-/

/-! ## I2C protocol engine (src/i2c.rs) -/

/-- enum I2CMode.  The Tx/Rx buffers are raw pointers in the source
(`*const [u8]` / `*mut [u8]`); here the pointed-to byte sequence is carried
inline as a list, so a write through the Rx pointer shows up as an update of
the list held by the mode. -/
inductive I2CMode where
  | PrimaryTx (buf : List Nat)
  | PrimaryRx (buf : List Nat)
  | SecondaryTx
  | SecondaryRx
deriving DecidableEq

/-- enum I2CStatus: the transaction progress cursor. -/
inductive I2CStatus where
  | AddressSend (addr : Nat)
  | AddressSent
  | Run (loc : Nat)
deriving DecidableEq

/-- Observable actions of the interrupt handler, in program order: the raw
or-write into the status register at address 0x4006_6003, the slot lock
attempt, and the register accesses performed by the protocol engine. -/
inductive Event where
  | writeS (v : Nat)
  | tryLock
  | writeD (v : Nat)
  | readD
  | writeC1 (v : Nat)
deriving DecidableEq

/-- The state visible to struct I2CState's methods: the transaction fields
(mode, status), the I2C0 registers it dereferences (s, d, c1 as bytes;
bit 0 of s is RXAK, bit 1 is IICIF), the done flag behind the AtomicBool
pointer, and the event log. -/
structure EngSt where
  mode : I2CMode
  status : I2CStatus
  s : Nat
  d : Nat
  c1 : Nat
  done : Bool
  log : List Event
deriving DecidableEq

/-- Write a byte to control register c1.  svd2rust's write resets the
unmentioned fields, so the register becomes exactly the written byte.
Bit layout: IICEN=128, IICIE=64, MST=32, TX=16, TXAK=8. -/
def write_c1 (st : EngSt) (v : Nat) : EngSt :=
  { st with c1 := v % 256, log := st.log ++ [Event.writeC1 (v % 256)] }

/-- fn rx_ok: the RXAK status bit is clear. -/
def rx_ok (st : EngSt) : Bool :=
  !(st.s.testBit 0)

/-- fn get_byte: read the data register. -/
def get_byte (st : EngSt) : Nat :=
  st.d

/-- fn set_byte: write a byte to the data register. -/
def set_byte (st : EngSt) (byte : Nat) : EngSt :=
  { st with d := byte % 256, log := st.log ++ [Event.writeD (byte % 256)] }

/-- fn mark_done: store true through the done pointer. -/
def mark_done (st : EngSt) : EngSt :=
  { st with done := true }

/-- fn stop_signal: write c1 with IICEN and MST set (0xA0). -/
def stop_signal (st : EngSt) : EngSt :=
  write_c1 st 160

/-- fn send_byte: transmit if the last byte was acknowledged, otherwise
release mastership (write c1 with MST cleared, resetting the register)
and mark the transaction done. -/
def send_byte (st : EngSt) (byte : Nat) : EngSt :=
  if rx_ok st then
    set_byte st byte
  else
    mark_done (write_c1 st 0)

/-- fn next_byte: look up the byte at loc; when present, advance the stored
status to Run (loc + 1) and return it. -/
def next_byte (st : EngSt) (buffer : List Nat) (loc : Nat) : EngSt × Option Nat :=
  match buffer[loc]? with
  | some byte => ({ st with status := I2CStatus.Run (loc + 1) }, some byte)
  | none => (st, none)

/-- fn maybe_receive: one byte before the last, suppress further
acknowledges (write c1 with TXAK set); on the last byte, issue the stop
condition first; then store the data-register byte at loc and increment
the caller's loc.  The source writes through the caller's `&mut usize`;
the incremented value is returned as the second component.  Indexing past
the buffer (including the empty-buffer case) panics in the source: none. -/
def maybe_receive (st : EngSt) (buffer : List Nat) (loc : Nat) : Option (EngSt × Nat) :=
  let st1 :=
    if loc == buffer.length - 1 then stop_signal st
    else if loc == buffer.length - 2 then write_c1 st 8
    else st
  if loc < buffer.length then
    some ({ st1 with mode := I2CMode.PrimaryRx (buffer.set loc (get_byte st1)) }, loc + 1)
  else
    none

/-- fn maybe_transmit: send the next buffer byte if any remains (next_byte
advances the stored status) and increment the caller's loc; otherwise issue
the stop condition and mark done. -/
def maybe_transmit (st : EngSt) (buffer : List Nat) (loc : Nat) : EngSt × Nat :=
  match next_byte st buffer loc with
  | (st1, some b) => (send_byte st1 b, loc + 1)
  | (st1, none) => (mark_done (stop_signal st1), loc)

/-- The dispatch on (mode, status) inside the try_lock closure of fn i2c0.
none models a panic (todo! for secondary modes, unreachable!, or the
out-of-bounds receive).  Match arms are in source order. -/
def i2c0_body (st : EngSt) : Option EngSt :=
  match st.mode, st.status with
  | I2CMode.SecondaryTx, _ => none
  | I2CMode.SecondaryRx, _ => none
  | _, I2CStatus.AddressSend addr =>
      let st1 := set_byte st addr
      some { st1 with status := I2CStatus.AddressSent }
  | _, I2CStatus.AddressSent =>
      if rx_ok st then
        match st.mode with
        | I2CMode.PrimaryTx buf =>
            let r := maybe_transmit st buf 0
            some { r.1 with status := I2CStatus.Run r.2 }
        | I2CMode.PrimaryRx _ =>
            let st1 := write_c1 st 0
            let st2 := { st1 with log := st1.log ++ [Event.readD] }
            some { st2 with status := I2CStatus.Run 0 }
        | _ => none
      else
        some st
  | I2CMode.PrimaryTx buf, I2CStatus.Run loc =>
      some (maybe_transmit st buf loc).1
  | I2CMode.PrimaryRx buf, I2CStatus.Run loc =>
      match maybe_receive st buf loc with
      | some r => some r.1
      | none => none

/-- The shared transaction slot (static I2C0_STATE): empty, locked by some
other holder, or holding a transaction. -/
inductive Slot where
  | empty
  | locked
  | full (mode : I2CMode) (status : I2CStatus)
deriving DecidableEq

/-- The whole machine the interrupt handler touches: I2C0 registers, the
foreground's done flag, the slot, the event log, and a flag recording that
a panic aborted execution (after a panic the register fields are not
tracked further; the source halts there). -/
structure Mach where
  s : Nat
  d : Nat
  c1 : Nat
  done : Bool
  panicked : Bool
  log : List Event
  slot : Slot
deriving DecidableEq

/-- fn i2c0, the interrupt handler: first or the IICIF bit (0b10) into the
raw status register no matter what, then attempt to lock the slot; a failed
attempt (empty or locked) is discarded with .ok(); on success run the
dispatch and leave the mutated transaction in place. -/
def i2c0 (m : Mach) : Mach :=
  let m1 : Mach := { m with s := m.s ||| 2, log := m.log ++ [Event.writeS 2] }
  let m2 : Mach := { m1 with log := m1.log ++ [Event.tryLock] }
  match m2.slot with
  | Slot.empty => m2
  | Slot.locked => m2
  | Slot.full mode status =>
      let st : EngSt :=
        { mode := mode, status := status, s := m2.s, d := m2.d, c1 := m2.c1,
          done := m2.done, log := m2.log }
      match i2c0_body st with
      | none => { m2 with panicked := true }
      | some st1 =>
          { s := st1.s, d := st1.d, c1 := st1.c1, done := st1.done,
            panicked := m2.panicked, log := st1.log,
            slot := Slot.full st1.mode st1.status }

/-- Iterate the interrupt handler n times. -/
def i2cRun : Nat → Mach → Mach
  | 0, m => m
  | n + 1, m => i2cRun n (i2c0 m)

/-- The sequence of bytes written to the data register, in order. -/
def dataWrites (log : List Event) : List Nat :=
  log.filterMap fun e =>
    match e with
    | Event.writeD v => some v
    | _ => none

/-- States reachable from a starting machine: the interrupt handler may
fire, and between interrupts the hardware may update the status and data
registers (bus activity); nothing else touches the slot or the done flag. -/
inductive Reach : Mach → Mach → Prop where
  | refl (m : Mach) : Reach m m
  | handler {a b : Mach} : Reach a b → Reach a (i2c0 b)
  | env {a b : Mach} (s1 d1 : Nat) : Reach a b → Reach a { b with s := s1, d := d1 }

/-! ## Baud divider search and the I2C0 constructor (src/i2c.rs) -/

/-- const DIVISIONS, copied in source order (note 1920 before 1792). -/
def DIVISIONS : List Nat :=
  [20, 22, 24, 26, 28, 30, 32, 34, 36, 40, 44, 48, 52, 56, 60, 64, 68, 72,
   80, 88, 96, 104, 112, 128, 136, 144, 160, 176, 192, 224, 240, 256, 288,
   320, 352, 384, 448, 480, 512, 576, 640, 768, 896, 960, 1024, 1152, 1280,
   1536, 1920, 1792, 2048, 2304, 2560, 3072, 3840]

/-- const MULT. -/
def MULT : List Nat := [1, 2, 4]

/-- The distance |bus / (DIVISIONS[i] * MULT[j]) - target| computed with
integer division, exactly the diff of fn find_freq. -/
def i2cDiff (target bus i j : Nat) : Nat :=
  let c := bus / (DIVISIONS.getD i 0 * MULT.getD j 0)
  if c > target then c - target else target - c

/-- The (divisor index, multiplier index) pairs in the iteration order of
fn find_freq: outer loop over DIVISIONS, inner loop over MULT. -/
def allPairs : List (Nat × Nat) :=
  (List.range DIVISIONS.length).flatMap fun i =>
    (List.range MULT.length).map fun j => (i, j)

/-- The accumulator loop of fn find_freq: (distance, idx, mul) updated
whenever a strictly smaller distance is found, so ties keep the first
combination in iteration order. -/
def findFreqAux (target bus : Nat) :
    List (Nat × Nat) → Nat → Nat → Nat → Nat × Nat × Nat
  | [], distance, idx, mul => (distance, idx, mul)
  | (i, j) :: rest, distance, idx, mul =>
      let diff := i2cDiff target bus i j
      if distance > diff then findFreqAux target bus rest diff i j
      else findFreqAux target bus rest distance idx mul

/-- fn find_freq: scan every (divisor, multiplier) combination starting
from distance = u32::MAX and return (mul, idx) of the best one. -/
def find_freq (target bus : Nat) : Nat × Nat :=
  let r := findFreqAux target bus allPairs (2 ^ 32 - 1) 0 0
  (r.2.2, r.2.1)

/-- The externally visible outcome of fn I2C0::i2c0: the SIM clock gate,
the written F and C1 register bytes (F: ICR in bits 5..0, MULT in bits
7..6; C1: IICEN=128, MST=32), and the constructed value, which is none
because the function ends in todo!(). -/
structure CtorOut where
  sim_i2c0_clock_enabled : Bool
  f : Nat
  c1 : Nat
  result : Option Unit
deriving DecidableEq

/-- fn I2C0::i2c0 (with the bus frequency obtained from the SIM
collaborator passed in): pick the baud divider, enable the peripheral
clock, write the frequency register, set the enable and master bits,
then hit todo!() - so no value is ever produced. -/
def I2C0.i2c0 (baud bus : Nat) : CtorOut :=
  let r := find_freq baud bus
  { sim_i2c0_clock_enabled := true,
    f := r.2 % 64 + r.1 % 4 * 64,
    c1 := 160,
    result := none }

/-! ## Clock generator register arithmetic (src/mcg.rs) -/

/-- The MCG registers the divider functions touch, as raw bytes.
Field layout: c1 holds FRDIV in bits 5..3; c2 holds RANGE0 in bits 5..4;
c5 holds PRDIV0 in bits 4..0; c6 holds VDIV0 in bits 4..0; c7 holds
OSCSEL in bit 0. -/
structure McgRegs where
  c1 : Nat
  c2 : Nat
  c5 : Nat
  c6 : Nat
  c7 : Nat
deriving DecidableEq

/-- The "low-frequency crystal or RTC reference" condition shared by the
external-crystal divider encode and decode paths:
range0().is_00() || oscsel().bit_is_set(). -/
def rtc_or_low_freq_crystal (r : McgRegs) : Bool :=
  (r.c2 / 16 % 4 == 0) || r.c7.testBit 0

/-- fn set_external_crystal_frequency_divider.  The guards are transcribed
with Rust's operator precedence, where && binds tighter than ||:
each arm tests (flag && divider == low) || divider == high.  The c1 write
resets the register, leaving only the FRDIV field (bits 5..3).  An
unmatched divider panics: none. -/
def set_external_crystal_frequency_divider (r : McgRegs) (divider : Nat) :
    Option McgRegs :=
  let flag := rtc_or_low_freq_crystal r
  let put : Nat → Option McgRegs := fun v => some { r with c1 := v % 8 * 8 }
  if (flag && divider == 1) || divider == 32 then put 0
  else if (flag && divider == 2) || divider == 64 then put 1
  else if (flag && divider == 4) || divider == 128 then put 2
  else if (flag && divider == 8) || divider == 256 then put 3
  else if (flag && divider == 16) || divider == 512 then put 4
  else if (flag && divider == 32) || divider == 1024 then put 5
  else if (flag && divider == 64) || divider == 1280 then put 6
  else if (flag && divider == 128) || divider == 1536 then put 7
  else none

/-- fn get_external_crystal_frequency_divider: decode FRDIV, with the
meaning of each code depending on the low-frequency/RTC flag. -/
def get_external_crystal_frequency_divider (r : McgRegs) : Nat :=
  let flag := rtc_or_low_freq_crystal r
  match r.c1 / 8 % 8 with
  | 0 => if flag then 1 else 32
  | 1 => if flag then 2 else 64
  | 2 => if flag then 4 else 128
  | 3 => if flag then 8 else 256
  | 4 => if flag then 16 else 512
  | 5 => if flag then 32 else 1024
  | 6 => if flag then 64 else 1280
  | _ => if flag then 128 else 1536

/-- fn set_pll_frequency_divider: panic (none) outside the documented
ranges (numerator 24..=55, denominator 1..=25), otherwise write the
offset-encoded fields; each write resets its whole register, and the
5-bit fields mask their value. -/
def set_pll_frequency_divider (r : McgRegs) (numerator denominator : Nat) :
    Option McgRegs :=
  if numerator < 24 || numerator > 55 then none
  else if denominator < 1 || denominator > 25 then none
  else some { r with c5 := (denominator - 1) % 32, c6 := (numerator - 24) % 32 }

/-- fn get_pll_frequency_divider: read the fields back and add the
minimums. -/
def get_pll_frequency_divider (r : McgRegs) : Nat × Nat :=
  (r.c6 % 32 + 24, r.c5 % 32 + 1)

/-- The while-loop of Euclid's algorithm in fn pll_frequency_divider_gcd. -/
def euclidGcd (num den : Nat) : Nat :=
  if h : den = 0 then num else euclidGcd den (num % den)
termination_by den
decreasing_by exact Nat.mod_lt _ (Nat.pos_of_ne_zero h)

/-- The scaling while-loop of fn pll_frequency_divider_gcd: while the pair
is below the hardware minimums, bump the common multiplier and retry, and
panic (none) as soon as a multiple overflows u8 or leaves the legal window
(checked_mul failure and an out-of-window product both panic, and a
product over 255 is also over 55, so one guard covers both).  The loop in
the source runs on num >= 1, where it takes at most 23 steps; the fuel
argument only makes the recursion structural and never runs out then. -/
def pllScaleLoop : Nat → Nat → Nat → Nat → Nat → Nat → Option (Nat × Nat)
  | 0, _, _, _, _, _ => none
  | fuel + 1, num, den, freq_num, freq_den, mul =>
      if freq_num < 24 || freq_den < 1 then
        let mul1 := mul + 1
        let nfn := num * mul1
        let nfd := den * mul1
        if nfn ≤ 55 && nfd ≤ 25 then pllScaleLoop fuel num den nfn nfd mul1
        else none
      else
        some (freq_num, freq_den)

/-- fn pll_frequency_divider_gcd: reduce by the GCD (dividing by a zero
GCD panics: none), panic if the reduced ratio is degenerate or above the
maximums, then scale the pair up into the legal window. -/
def pll_frequency_divider_gcd (numerator denominator : Nat) : Option (Nat × Nat) :=
  let gcd := euclidGcd numerator denominator
  if gcd = 0 then none
  else
    let num := numerator / gcd
    let den := denominator / gcd
    if num = 0 || den = 0 || num > 55 || den > 25 then none
    else pllScaleLoop 256 num den num den 1

/-! ## Auxiliary predicates and concrete inputs used by the theorems -/

/-- The mode is one of the two implemented primary (master) modes. -/
def isPrimary : I2CMode → Bool
  | I2CMode.PrimaryTx _ => true
  | I2CMode.PrimaryRx _ => true
  | I2CMode.SecondaryTx => false
  | I2CMode.SecondaryRx => false

/-- The strict iteration order of the find_freq scan: lower divisor index
first, then lower multiplier index. -/
def pairLt (p q : Nat × Nat) : Prop :=
  p.1 < q.1 ∨ (p.1 = q.1 ∧ p.2 < q.2)

instance : DecidableRel pairLt := fun p q => by
  unfold pairLt
  infer_instance

/-- A receive transaction mid data phase: buffer of length 3, offset 0,
acknowledge present, data register holding 0xAB. -/
def rxStuckInput : Mach :=
  { s := 0, d := 0xAB, c1 := 0, done := false, panicked := false, log := [],
    slot := Slot.full (I2CMode.PrimaryRx [0, 0, 0]) (I2CStatus.Run 0) }

/-- The transmit scenario of the specification: mode PrimaryTx with buffer
[0x11, 0x22], address 0x50, acknowledge present on every check. -/
def txScenarioStart : Mach :=
  { s := 0, d := 0, c1 := 0, done := false, panicked := false, log := [],
    slot := Slot.full (I2CMode.PrimaryTx [0x11, 0x22]) (I2CStatus.AddressSend 0x50) }

/-- A transmit transaction at AddressSent with the acknowledge bit absent
(RXAK, bit 0 of the status register, reads as set). -/
def nackAddressInput : Mach :=
  { s := 1, d := 0, c1 := 0, done := false, panicked := false, log := [],
    slot := Slot.full (I2CMode.PrimaryTx [0x11]) I2CStatus.AddressSent }

/-- An all-zero MCG register block (RANGE0 = 00, so the low-frequency/RTC
condition holds). -/
def mcgZero : McgRegs :=
  { c1 := 0, c2 := 0, c5 := 0, c6 := 0, c7 := 0 }

/-! ## Theorems -/

/-- C2: for every input, the public constructor I2C0::i2c0 computes the
baud divider indices, enables the peripheral clock, writes the frequency
register, sets the enable and master bits, and then unconditionally
reaches todo!(), so it never returns an I2C0 value. -/
theorem i2c0_constructor_never_returns (baud bus : Nat) :
    (I2C0.i2c0 baud bus).result = none ∧
    (I2C0.i2c0 baud bus).sim_i2c0_clock_enabled = true ∧
    (I2C0.i2c0 baud bus).f =
      (find_freq baud bus).2 % 64 + (find_freq baud bus).1 % 4 * 64 ∧
    (I2C0.i2c0 baud bus).c1 = 160 :=
  ⟨rfl, rfl, rfl, rfl⟩

/-- C1: evaluation at the failing input.  In PrimaryRx mode at Run(0) with
a 3-byte buffer and 0xAB in the data register, the handler does store the
byte at offset 0, but the stored status does not advance to Run(1): the
offset increment in maybe_receive lands in a by-value copy of the Run
payload, so the next interrupt still finds Run(0) and overwrites the same
buffer index, contradicting the claimed strict progression. -/
theorem rx_handler_keeps_offset :
    (i2c0 rxStuckInput).slot =
      Slot.full (I2CMode.PrimaryRx [0xAB, 0, 0]) (I2CStatus.Run 0) ∧
    (i2c0 (i2c0 rxStuckInput)).slot =
      Slot.full (I2CMode.PrimaryRx [0xAB, 0, 0]) (I2CStatus.Run 0) ∧
    I2CStatus.Run 0 ≠ I2CStatus.Run 1 := by
  decide

/-- C3: the PrimaryTx scenario with address 0x50 and buffer [0x11, 0x22],
acknowledge present on every check: the four successive interrupts write
0x50, 0x11, 0x22 to the data register in order, and the completion flag is
false after each of the first three interrupts and true only after the
fourth. -/
theorem tx_scenario_four_interrupts :
    (i2cRun 1 txScenarioStart).done = false ∧
    (i2cRun 2 txScenarioStart).done = false ∧
    (i2cRun 3 txScenarioStart).done = false ∧
    (i2cRun 4 txScenarioStart).done = true ∧
    dataWrites (i2cRun 4 txScenarioStart).log = [0x50, 0x11, 0x22] := by
  decide

/-- C4, counterexample: with status AddressSent and the acknowledge bit
absent (RXAK set), the handler leaves the status at AddressSent; it is not
Run(0) as the claim states. -/
theorem nack_address_counterexample :
    (i2c0 nackAddressInput).slot =
      Slot.full (I2CMode.PrimaryTx [0x11]) I2CStatus.AddressSent ∧
    Slot.full (I2CMode.PrimaryTx [0x11]) I2CStatus.AddressSent ≠
      Slot.full (I2CMode.PrimaryTx [0x11]) (I2CStatus.Run 0) := by
  decide

/-- C4, amended: when the protocol engine handles an interrupt with status
AddressSent and the acknowledge bit absent (RXAK set), the whole branch
body is skipped: the status stays AddressSent (handling does not proceed
into the data phase), and the data register, control register and done
flag are untouched. -/
theorem nack_address_skips_branch (m : Mach) (mode : I2CMode)
    (hp : isPrimary mode = true)
    (hslot : m.slot = Slot.full mode I2CStatus.AddressSent)
    (hnack : m.s.testBit 0 = true) :
    (i2c0 m).slot = Slot.full mode I2CStatus.AddressSent ∧
    (i2c0 m).done = m.done ∧
    (i2c0 m).d = m.d ∧
    (i2c0 m).c1 = m.c1 := by
  have hbit : (m.s ||| 2).testBit 0 = true := by
    rw [Nat.testBit_lor, hnack]
    rfl
  cases mode with
  | SecondaryTx => simp [isPrimary] at hp
  | SecondaryRx => simp [isPrimary] at hp
  | PrimaryTx buf => simp [i2c0, hslot, i2c0_body, rx_ok, hbit]
  | PrimaryRx buf => simp [i2c0, hslot, i2c0_body, rx_ok, hbit]

/-- C4, witness for the amended theorem at the concrete NACK input. -/
theorem nack_address_skips_branch_witness :
    (i2c0 nackAddressInput).slot =
      Slot.full (I2CMode.PrimaryTx [0x11]) I2CStatus.AddressSent ∧
    (i2c0 nackAddressInput).done = nackAddressInput.done := by
  have h := nack_address_skips_branch nackAddressInput
    (I2CMode.PrimaryTx [0x11]) (by decide) (by decide) (by decide)
  exact ⟨h.1, h.2.1⟩

/-- C9: set_pll_frequency_divider followed by get_pll_frequency_divider
round-trips for every numerator in [24,55] and denominator in [1,25]:
the offset encoding into the vdiv0 and prdiv0 fields is inverted exactly. -/
theorem pll_divider_roundtrip (r : McgRegs) (n d : Nat)
    (hn1 : 24 ≤ n) (hn2 : n ≤ 55) (hd1 : 1 ≤ d) (hd2 : d ≤ 25) :
    ∃ r1, set_pll_frequency_divider r n d = some r1 ∧
      get_pll_frequency_divider r1 = (n, d) := by
  have h1 : ¬ n < 24 := by omega
  have h2 : ¬ n > 55 := by omega
  have h3 : ¬ d < 1 := by omega
  have h4 : ¬ d > 25 := by omega
  have hset : set_pll_frequency_divider r n d =
      some { r with c5 := (d - 1) % 32, c6 := (n - 24) % 32 } := by
    simp [set_pll_frequency_divider, h1, h2, h3, h4]
  refine ⟨_, hset, ?_⟩
  simp only [get_pll_frequency_divider, Prod.mk.injEq]
  constructor <;> simp <;> omega

/-- C9, witness at numerator 30, denominator 5 on the zero register
block. -/
theorem pll_divider_roundtrip_witness :
    ∃ r1, set_pll_frequency_divider mcgZero 30 5 = some r1 ∧
      get_pll_frequency_divider r1 = (30, 5) :=
  pll_divider_roundtrip mcgZero 30 5 (by norm_num) (by norm_num)
    (by norm_num) (by norm_num)

/-- C10: under the low-frequency/RTC condition the external-crystal
divider encoding does not round-trip: the first match arm's guard parses
as (flag && divider == 1) || divider == 32, so divider 32 is stored as the
code whose low-frequency decoding is 1, and likewise 64 decodes back as 2
and 128 as 4 at the later arms. -/
theorem ext_crystal_divider_no_roundtrip (r : McgRegs)
    (hflag : rtc_or_low_freq_crystal r = true) :
    (∃ r1, set_external_crystal_frequency_divider r 32 = some r1 ∧
       get_external_crystal_frequency_divider r1 = 1) ∧
    (∃ r1, set_external_crystal_frequency_divider r 64 = some r1 ∧
       get_external_crystal_frequency_divider r1 = 2) ∧
    (∃ r1, set_external_crystal_frequency_divider r 128 = some r1 ∧
       get_external_crystal_frequency_divider r1 = 4) ∧
    (1 : Nat) ≠ 32 := by
  have hkeep : ∀ v : Nat,
      rtc_or_low_freq_crystal { r with c1 := v } = rtc_or_low_freq_crystal r := by
    intro v
    simp [rtc_or_low_freq_crystal]
  have hset32 : set_external_crystal_frequency_divider r 32 =
      some { r with c1 := 0 } := by
    simp [set_external_crystal_frequency_divider]
  have hset64 : set_external_crystal_frequency_divider r 64 =
      some { r with c1 := 8 } := by
    simp [set_external_crystal_frequency_divider]
  have hset128 : set_external_crystal_frequency_divider r 128 =
      some { r with c1 := 16 } := by
    simp [set_external_crystal_frequency_divider]
  refine ⟨⟨_, hset32, ?_⟩, ⟨_, hset64, ?_⟩, ⟨_, hset128, ?_⟩, by norm_num⟩
  · simp [get_external_crystal_frequency_divider, hkeep, hflag]
  · simp [get_external_crystal_frequency_divider, hkeep, hflag]
  · simp [get_external_crystal_frequency_divider, hkeep, hflag]

/-- C10, witness on the zero register block, where RANGE0 = 00 makes the
low-frequency/RTC condition true. -/
theorem ext_crystal_divider_no_roundtrip_witness :
    ∃ r1, set_external_crystal_frequency_divider mcgZero 32 = some r1 ∧
      get_external_crystal_frequency_divider r1 = 1 :=
  (ext_crystal_divider_no_roundtrip mcgZero (by decide)).1


theorem maybe_transmit_effects (st : EngSt) (buf : List Nat) (loc : Nat) :
    ((maybe_transmit st buf loc).1).s = st.s ∧
    ∃ t, ((maybe_transmit st buf loc).1).log = st.log ++ t := by
  unfold maybe_transmit next_byte
  cases hb : buf[loc]? with
  | some b =>
      simp only [hb]
      unfold send_byte
      split
      · exact ⟨rfl, _, rfl⟩
      · exact ⟨rfl, _, rfl⟩
  | none =>
      simp only [hb]
      exact ⟨rfl, _, rfl⟩

theorem maybe_receive_effects (st : EngSt) (buf : List Nat) (loc : Nat) :
    maybe_receive st buf loc = none ∨
    ∃ st2, maybe_receive st buf loc = some (st2, loc + 1) ∧
      st2.s = st.s ∧ st2.done = st.done ∧ (∃ t, st2.log = st.log ++ t) ∧
      ∃ b1, st2.mode = I2CMode.PrimaryRx b1 := by
  unfold maybe_receive
  split
  · split
    · exact Or.inr ⟨_, rfl, rfl, rfl, ⟨_, rfl⟩, _, rfl⟩
    · exact Or.inl rfl
  · split
    · split
      · exact Or.inr ⟨_, rfl, rfl, rfl, ⟨_, rfl⟩, _, rfl⟩
      · exact Or.inl rfl
    · split
      · exact Or.inr ⟨_, rfl, rfl, rfl, ⟨[], (List.append_nil _).symm⟩, _, rfl⟩
      · exact Or.inl rfl

theorem i2c0_body_log (st st1 : EngSt) (h : i2c0_body st = some st1) :
    st1.s = st.s ∧ ∃ t, st1.log = st.log ++ t := by
  unfold i2c0_body at h
  rcases hm : st.mode with buf | buf | - | - <;>
    rcases hs : st.status with addr | - | loc <;>
      rw [hm, hs] at h <;> simp only [] at h
  · rw [Option.some_inj] at h
    subst h
    exact ⟨rfl, _, rfl⟩
  · split at h
    · rw [Option.some_inj] at h
      subst h
      obtain ⟨h1, t, h2⟩ := maybe_transmit_effects st buf 0
      exact ⟨h1, t, h2⟩
    · rw [Option.some_inj] at h
      subst h
      exact ⟨rfl, [], (List.append_nil _).symm⟩
  · rw [Option.some_inj] at h
    subst h
    obtain ⟨h1, t, h2⟩ := maybe_transmit_effects st buf loc
    exact ⟨h1, t, h2⟩
  · rw [Option.some_inj] at h
    subst h
    exact ⟨rfl, _, rfl⟩
  · split at h
    · rw [Option.some_inj] at h
      subst h
      refine ⟨rfl, [Event.writeC1 0, Event.readD], ?_⟩
      simp [write_c1]
    · rw [Option.some_inj] at h
      subst h
      exact ⟨rfl, [], (List.append_nil _).symm⟩
  · rcases maybe_receive_effects st buf loc with hnone | ⟨st2, heq, h1, h2, h3, h4⟩
    · rw [hnone] at h
      exact absurd h (by simp)
    · rw [heq] at h
      rw [Option.some_inj] at h
      subst h
      exact ⟨h1, h3⟩
  · exact absurd h (by simp)
  · exact absurd h (by simp)
  · exact absurd h (by simp)
  · exact absurd h (by simp)
  · exact absurd h (by simp)
  · exact absurd h (by simp)

theorem i2c0_body_rx (st st1 : EngSt) (buf : List Nat)
    (hm : st.mode = I2CMode.PrimaryRx buf) (h : i2c0_body st = some st1) :
    st1.done = st.done ∧ ∃ b1, st1.mode = I2CMode.PrimaryRx b1 := by
  unfold i2c0_body at h
  rcases hs : st.status with addr | - | loc <;> rw [hm, hs] at h <;> simp only [] at h
  · rw [Option.some_inj] at h
    subst h
    exact ⟨rfl, buf, hm⟩
  · split at h
    · rw [Option.some_inj] at h
      subst h
      exact ⟨rfl, buf, hm⟩
    · rw [Option.some_inj] at h
      subst h
      exact ⟨rfl, buf, hm⟩
  · rcases maybe_receive_effects st buf loc with hnone | ⟨st2, heq, h1, h2, h3, h4⟩
    · rw [hnone] at h
      exact absurd h (by simp)
    · rw [heq] at h
      rw [Option.some_inj] at h
      subst h
      exact ⟨h2, h4⟩

/-- C8: on every invocation of the interrupt handler, for every machine
state - slot empty, locked, or holding any transaction - the first two
emitted actions are the raw or-write of the interrupt-pending bit into the
status register and then the slot lock attempt, in that order, and after
the handler the pending bit of the status register is set; the handler
never reaches the lock attempt without having performed the clear. -/
theorem clear_before_lock (m : Mach) :
    (i2c0 m).s.testBit 1 = true ∧
    ∃ rest, (i2c0 m).log = m.log ++ (Event.writeS 2 :: Event.tryLock :: rest) := by
  have hbit : ∀ x : Nat, (x ||| 2).testBit 1 = true := fun x => by
    rw [Nat.testBit_lor, (by decide : Nat.testBit 2 1 = true), Bool.or_true]
  obtain ⟨s, d, c1, done, panicked, log, slot⟩ := m
  cases slot with
  | empty => exact ⟨hbit s, [], by simp [i2c0]⟩
  | locked => exact ⟨hbit s, [], by simp [i2c0]⟩
  | full mode status =>
      cases hbody : i2c0_body
          { mode := mode, status := status, s := s ||| 2, d := d, c1 := c1,
            done := done, log := (log ++ [Event.writeS 2]) ++ [Event.tryLock] } with
      | none =>
          refine ⟨?_, [], ?_⟩
          · simp only [i2c0, hbody]
            exact hbit s
          · simp only [i2c0, hbody]
            simp
      | some st1 =>
          obtain ⟨h1, t, h2⟩ := i2c0_body_log _ _ hbody
          refine ⟨?_, t, ?_⟩
          · simp only [i2c0, hbody]
            rw [h1]
            exact hbit s
          · simp only [i2c0, hbody]
            rw [h2]
            simp

theorem rx_step_inv (b : Mach) (hdone : b.done = false)
    (hrx : ∃ buf status, b.slot = Slot.full (I2CMode.PrimaryRx buf) status) :
    (i2c0 b).done = false ∧
    ∃ buf status, (i2c0 b).slot = Slot.full (I2CMode.PrimaryRx buf) status := by
  obtain ⟨buf, status, hslot⟩ := hrx
  obtain ⟨s, d, c1, done, panicked, log, slot⟩ := b
  simp only at hslot hdone
  subst hslot
  subst hdone
  cases hbody : i2c0_body
      { mode := I2CMode.PrimaryRx buf, status := status, s := s ||| 2, d := d,
        c1 := c1, done := false, log := (log ++ [Event.writeS 2]) ++ [Event.tryLock] } with
  | none =>
      refine ⟨?_, buf, status, ?_⟩ <;> simp only [i2c0, hbody]
  | some st1 =>
      obtain ⟨h1, b1, h2⟩ := i2c0_body_rx _ _ buf rfl hbody
      refine ⟨?_, b1, st1.status, ?_⟩
      · simp only [i2c0, hbody]
        rw [h1]
      · simp only [i2c0, hbody]
        rw [h2]

/-- C5: in PrimaryRx mode the engine never sets the completion flag:
starting from any machine whose slot holds a PrimaryRx transaction with
the done flag false, every state reachable through interrupts and
hardware register updates still has the done flag false, so the
foreground read call waiting on it is never released by the engine. -/
theorem rx_never_done (m m1 : Mach) (hr : Reach m m1) (hdone : m.done = false)
    (hrx : ∃ buf status, m.slot = Slot.full (I2CMode.PrimaryRx buf) status) :
    m1.done = false := by
  suffices h : m1.done = false ∧
      ∃ buf status, m1.slot = Slot.full (I2CMode.PrimaryRx buf) status from h.1
  induction hr with
  | refl => exact ⟨hdone, hrx⟩
  | handler hr ih => exact rx_step_inv _ ih.1 ih.2
  | env s1 d1 hr ih => exact ⟨ih.1, ih.2⟩

/-- C5, witness: one interrupt on a concrete PrimaryRx transaction leaves
the done flag false. -/
theorem rx_never_done_witness : (i2c0 rxStuckInput).done = false :=
  rx_never_done rxStuckInput (i2c0 rxStuckInput)
    (Reach.handler (Reach.refl rxStuckInput)) rfl
    ⟨[0, 0, 0], I2CStatus.Run 0, rfl⟩


theorem euclidGcd_zero (num : Nat) : euclidGcd num 0 = num := by
  rw [euclidGcd]
  simp

theorem euclidGcd_step (num den : Nat) (h : den ≠ 0) :
    euclidGcd num den = euclidGcd den (num % den) := by
  rw [euclidGcd]
  simp [h]

theorem pllScaleLoop_reaches :
    ∀ (fuel num den mul k : Nat), 1 ≤ num → 1 ≤ den → 1 ≤ mul → mul ≤ k →
    24 ≤ k * num → k * num ≤ 55 → k * den ≤ 25 →
    (∀ j, mul ≤ j → j < k → j * num < 24) →
    k - mul < fuel →
    pllScaleLoop fuel num den (num * mul) (den * mul) mul = some (num * k, den * k) := by
  intro fuel
  induction fuel with
  | zero =>
      intro num den mul k _ _ _ hmulk _ _ _ _ hfuel
      omega
  | succ fuel ih =>
      intro num den mul k hnum hden hmul hmulk hk24 hk55 hk25 hmin hfuel
      have hdenmul : 1 ≤ den * mul := Nat.mul_le_mul hden hmul
      unfold pllScaleLoop
      split
      · rename_i hcond
        have hlt : num * mul < 24 := by
          have h2 : num * mul < 24 ∨ den * mul < 1 := by simpa using hcond
          omega
        have hmulltk : mul < k := by
          rcases Nat.lt_or_ge mul k with h | h
          · exact h
          · have hmk : mul = k := le_antisymm hmulk h
            rw [hmk, Nat.mul_comm] at hlt
            omega
        dsimp only
        split
        · exact ih num den (mul + 1) k hnum hden (by omega) (by omega) hk24 hk55 hk25
            (fun j hj1 hj2 => hmin j (by omega) hj2) (by omega)
        · rename_i hguard
          exfalso
          apply hguard
          have h1 : num * (mul + 1) ≤ 55 := by
            calc num * (mul + 1) ≤ num * k := Nat.mul_le_mul_left num (by omega)
            _ = k * num := Nat.mul_comm num k
            _ ≤ 55 := hk55
          have h2 : den * (mul + 1) ≤ 25 := by
            calc den * (mul + 1) ≤ den * k := Nat.mul_le_mul_left den (by omega)
            _ = k * den := Nat.mul_comm den k
            _ ≤ 25 := hk25
          simp [h1, h2]
      · rename_i hcond
        have hge : ¬ num * mul < 24 := by
          intro hlt
          exact hcond (by simp [hlt])
        have hmk : mul = k := by
          rcases Nat.lt_or_ge mul k with h | h
          · have hj := hmin mul le_rfl h
            rw [Nat.mul_comm] at hj
            omega
          · omega
        rw [hmk]

/-- C6: for every (frequency, crystal) input pair whose GCD-reduced ratio
can be brought into the legal window (numerator 24..55, denominator 1..25)
by a uniform integer factor k - stated as: k scales the reduced pair into
the window and every smaller factor leaves the numerator below its minimum,
so k is the smallest sufficient factor - pll_frequency_divider_gcd returns
exactly the reduced pair scaled by that k, whose components lie in the
window by the same hypotheses. -/
theorem pll_divider_scales (f c k : Nat)
    (hk : 1 ≤ k)
    (h24 : 24 ≤ k * (f / euclidGcd f c))
    (h55 : k * (f / euclidGcd f c) ≤ 55)
    (hd1 : 1 ≤ k * (c / euclidGcd f c))
    (hd25 : k * (c / euclidGcd f c) ≤ 25)
    (hmin : ∀ j, 1 ≤ j → j < k → j * (f / euclidGcd f c) < 24) :
    pll_frequency_divider_gcd f c =
      some (k * (f / euclidGcd f c), k * (c / euclidGcd f c)) := by
  simp only [pll_frequency_divider_gcd]
  generalize hnumeq : f / euclidGcd f c = num at h24 h55 hmin ⊢
  generalize hdeneq : c / euclidGcd f c = den at hd1 hd25 ⊢
  have hnum1 : 1 ≤ num := by
    rcases Nat.eq_zero_or_pos num with h0 | h0
    · rw [h0, Nat.mul_zero] at h24
      omega
    · exact h0
  have hden1 : 1 ≤ den := by
    rcases Nat.eq_zero_or_pos den with h0 | h0
    · rw [h0, Nat.mul_zero] at hd1
      omega
    · exact h0
  have hg0 : ¬ euclidGcd f c = 0 := by
    intro h0
    rw [h0, Nat.div_zero] at hnumeq
    omega
  have hnum55 : num ≤ 55 := le_trans (Nat.le_mul_of_pos_left _ hk) h55
  have hden25 : den ≤ 25 := le_trans (Nat.le_mul_of_pos_left _ hk) hd25
  have hk55 : k ≤ 55 := by
    have h1 : k * 1 ≤ k * num := Nat.mul_le_mul_left k hnum1
    omega
  split
  · rename_i h0
    exact absurd h0 hg0
  · split
    · rename_i h0 hc
      exfalso
      simp at hc
      omega
    · have happ := pllScaleLoop_reaches 256 num den 1 k
        hnum1 hden1 le_rfl hk h24 h55 hd25 (fun j hj1 hj2 => hmin j hj1 hj2) (by omega)
      rw [Nat.mul_one, Nat.mul_one] at happ
      rw [happ, Nat.mul_comm num k, Nat.mul_comm den k]

/-- C6, witness: frequency 2, crystal 1 reduce to 2/1, and the smallest
sufficient factor 12 yields (24, 12). -/
theorem pll_divider_scales_witness :
    pll_frequency_divider_gcd 2 1 = some (24, 12) := by
  have hgcd : euclidGcd 2 1 = 1 := by
    rw [euclidGcd_step 2 1 (by norm_num), (by norm_num : 2 % 1 = 0), euclidGcd_zero]
  have h := pll_divider_scales 2 1 12 (by norm_num)
    (by simp [hgcd]) (by simp [hgcd]) (by simp [hgcd]) (by simp [hgcd])
    (fun j hj1 hj2 => by simp [hgcd]; omega)
  rw [hgcd] at h
  norm_num at h
  exact h


theorem findFreqAux_spec (t b : Nat) :
    ∀ (pairs : List (Nat × Nat)) (d0 i0 j0 d i j : Nat),
      findFreqAux t b pairs d0 i0 j0 = (d, i, j) →
      (∀ p ∈ pairs, d ≤ i2cDiff t b p.1 p.2) ∧ d ≤ d0 ∧
      ((d, i, j) = (d0, i0, j0) ∨
        ∃ l₁ l₂, pairs = l₁ ++ (i, j) :: l₂ ∧ d = i2cDiff t b i j ∧ d < d0 ∧
          ∀ p ∈ l₁, d < i2cDiff t b p.1 p.2) := by
  intro pairs
  induction pairs with
  | nil =>
      intro d0 i0 j0 d i j h
      unfold findFreqAux at h
      obtain ⟨rfl, rfl, rfl⟩ : d0 = d ∧ i0 = i ∧ j0 = j := by simpa using h
      exact ⟨by simp, le_rfl, Or.inl rfl⟩
  | cons hd rest ih =>
      obtain ⟨pi, pj⟩ := hd
      intro d0 i0 j0 d i j h
      unfold findFreqAux at h
      dsimp only at h
      split at h
      · rename_i hgt
        obtain ⟨hmem, hle, hcase⟩ := ih _ _ _ _ _ _ h
        refine ⟨?_, le_trans hle (le_of_lt hgt), ?_⟩
        · intro p hp
          rcases List.mem_cons.mp hp with rfl | hp
          · exact hle
          · exact hmem p hp
        · rcases hcase with heq | ⟨l₁, l₂, hsplit, hdiff, hlt, hstrict⟩
          · obtain ⟨rfl, rfl, rfl⟩ : d = i2cDiff t b pi pj ∧ i = pi ∧ j = pj := by
              simpa using heq
            exact Or.inr ⟨[], rest, by simp, rfl, hgt, by simp⟩
          · refine Or.inr ⟨(pi, pj) :: l₁, l₂, by simp [hsplit], hdiff,
              lt_trans hlt hgt, ?_⟩
            intro p hp
            rcases List.mem_cons.mp hp with rfl | hp
            · exact hlt
            · exact hstrict p hp
      · rename_i hngt
        have hd0le : d0 ≤ i2cDiff t b pi pj := Nat.le_of_not_lt hngt
        obtain ⟨hmem, hle, hcase⟩ := ih _ _ _ _ _ _ h
        refine ⟨?_, hle, ?_⟩
        · intro p hp
          rcases List.mem_cons.mp hp with rfl | hp
          · exact le_trans hle hd0le
          · exact hmem p hp
        · rcases hcase with heq | ⟨l₁, l₂, hsplit, hdiff, hlt, hstrict⟩
          · exact Or.inl heq
          · refine Or.inr ⟨(pi, pj) :: l₁, l₂, by simp [hsplit], hdiff, hlt, ?_⟩
            intro p hp
            rcases List.mem_cons.mp hp with rfl | hp
            · exact lt_of_lt_of_le hlt hd0le
            · exact hstrict p hp

theorem mem_allPairs (i j : Nat) :
    (i, j) ∈ allPairs ↔ i < DIVISIONS.length ∧ j < MULT.length := by
  simp [allPairs, List.mem_flatMap, List.mem_range]

set_option maxRecDepth 100000 in
theorem allPairs_sorted : List.Pairwise pairLt allPairs := by decide

theorem i2cDiff_le (t b i j : Nat) (ht : t < 2 ^ 32) (hb : b < 2 ^ 32) :
    i2cDiff t b i j ≤ 2 ^ 32 - 1 := by
  unfold i2cDiff
  dsimp only
  have hc : b / (DIVISIONS.getD i 0 * MULT.getD j 0) ≤ b := Nat.div_le_self _ _
  generalize hq : b / (DIVISIONS.getD i 0 * MULT.getD j 0) = q at hc ⊢
  split <;> omega

/-- C7: find_freq returns a (multiplier index, divisor index) pair such
that no other combination from the DIVISIONS and MULT tables gives a
strictly smaller distance |bus / (divisor * multiplier) - target| under
integer division, and every combination that comes earlier in iteration
order (lower divisor index, then lower multiplier index) has a strictly
greater distance, so among equal-distance combinations the first in
iteration order is the one returned. -/
theorem find_freq_minimizes (target bus mu ix : Nat)
    (ht : target < 2 ^ 32) (hb : bus < 2 ^ 32)
    (hf : find_freq target bus = (mu, ix)) :
    ix < DIVISIONS.length ∧ mu < MULT.length ∧
    (∀ i j, i < DIVISIONS.length → j < MULT.length →
      i2cDiff target bus ix mu ≤ i2cDiff target bus i j) ∧
    (∀ i j, i < DIVISIONS.length → j < MULT.length →
      (i < ix ∨ (i = ix ∧ j < mu)) →
      i2cDiff target bus ix mu < i2cDiff target bus i j) := by
  unfold find_freq at hf
  rcases hres : findFreqAux target bus allPairs (2 ^ 32 - 1) 0 0 with ⟨d, i, j⟩
  rw [hres] at hf
  obtain ⟨rfl, rfl⟩ : mu = j ∧ ix = i := by
    have h2 : j = mu ∧ i = ix := by simpa using hf
    exact ⟨h2.1.symm, h2.2.symm⟩
  obtain ⟨hmem, hled0, hcase⟩ := findFreqAux_spec target bus allPairs
    (2 ^ 32 - 1) 0 0 d ix mu hres
  rcases hcase with heq | ⟨l₁, l₂, hsplit, hdiff, hlt, hstrict⟩
  · obtain ⟨rfl, rfl, rfl⟩ : d = 2 ^ 32 - 1 ∧ ix = 0 ∧ mu = 0 := by simpa using heq
    refine ⟨by decide, by decide, ?_, ?_⟩
    · intro a c ha hc
      have h1 : i2cDiff target bus 0 0 ≤ 2 ^ 32 - 1 := i2cDiff_le _ _ _ _ ht hb
      have h2 : 2 ^ 32 - 1 ≤ i2cDiff target bus a c :=
        hmem (a, c) ((mem_allPairs a c).mpr ⟨ha, hc⟩)
      omega
    · intro a c ha hc habs
      rcases habs with h | ⟨h1, h2⟩ <;> omega
  · have hmemij : (ix, mu) ∈ allPairs := by
      rw [hsplit]
      exact List.mem_append.mpr (Or.inr (List.mem_cons_self _ _))
    obtain ⟨hix, hmu⟩ := (mem_allPairs ix mu).mp hmemij
    refine ⟨hix, hmu, ?_, ?_⟩
    · intro a c ha hc
      rw [← hdiff]
      exact hmem (a, c) ((mem_allPairs a c).mpr ⟨ha, hc⟩)
    · intro a c ha hc hlex
      have hsorted := allPairs_sorted
      rw [hsplit] at hsorted
      obtain ⟨-, hp2, -⟩ := List.pairwise_append.mp hsorted
      obtain ⟨hhead, -⟩ := List.pairwise_cons.mp hp2
      have hmemac : (a, c) ∈ l₁ ++ (ix, mu) :: l₂ := by
        rw [← hsplit]
        exact (mem_allPairs a c).mpr ⟨ha, hc⟩
      rcases List.mem_append.mp hmemac with hin1 | hin2
      · rw [← hdiff]
        exact hstrict (a, c) hin1
      · rcases List.mem_cons.mp hin2 with heq2 | hin2
        · exfalso
          obtain ⟨rfl, rfl⟩ : a = ix ∧ c = mu := by simpa using heq2
          rcases hlex with h | ⟨h1, h2⟩ <;> omega
        · exfalso
          have hpl := hhead (a, c) hin2
          unfold pairLt at hpl
          simp only at hpl
          rcases hpl with h1 | ⟨h1, h2⟩ <;> rcases hlex with h3 | ⟨h3, h4⟩ <;> omega

/-- C7, witness at target 100, bus 3600, where find_freq picks divisor
index 8 (divisor 36) with multiplier index 0. -/
theorem find_freq_minimizes_witness :
    i2cDiff 100 3600 8 0 ≤ i2cDiff 100 3600 0 0 :=
  (find_freq_minimizes 100 3600 0 8 (by norm_num) (by norm_num)
    (by decide)).2.2.1 0 0 (by decide) (by decide)
